import Mathlib

/-!
Shallow embedding of the version-ranged installation resolver of the
msbuild crate (src/lib.rs, src/win_sdk.rs, src/vs_paths.rs), together
with proofs about its range filter, list-based validation, selection
algorithm and directory-based SDK enumeration.

Paths are modelled as lists of components (mirroring std::path::Path,
whose starts_with and join work component-wise).  The filesystem is
modelled as an explicit finite structure listing which paths exist as
directories and which exist as non-directory entries.
-/

namespace Msbuild

/-- Kinds of std::io::Error used by the crate. -/
inductive ErrKind where
  | notFound
  | invalidData
  | other
deriving DecidableEq, Repr

/-- Modelled from the spec: the lenient_semver Version type used by the
crate is an external dependency whose source is not part of the
repository; per the spec it is an ordered, dot-separated sequence of
numeric components (leading numeric run per segment, non-numeric
suffixes tolerated), totally ordered lexicographically most-significant
first with the shorter sequence zero-padded for comparison. -/
structure Version where
  components : List Nat
deriving DecidableEq, Repr

/-- Numeric value of a decimal digit character. -/
def digitVal (c : Char) : Nat := c.toNat - 48

/-- Splitting a character list on the dot separator, the behavior of
str::split with a single-character pattern (an empty input yields one
empty segment). -/
def splitDots : List Char → List (List Char)
  | [] => [[]]
  | c :: cs =>
    if c = '.' then [] :: splitDots cs
    else
      match splitDots cs with
      | [] => [[c]]
      | seg :: rest => (c :: seg) :: rest

/-- Modelled from the spec: value of one dotted segment under the
lenient scheme — the leading numeric run, read in base 10. -/
def segValue (seg : List Char) : Nat :=
  (seg.takeWhile Char.isDigit).foldl (fun n c => n * 10 + digitVal c) 0

/-- Modelled from the spec: a segment is numerically interpretable when
it starts with a decimal digit (non-numeric suffixes are tolerated). -/
def segOk (seg : List Char) : Bool :=
  match seg with
  | [] => false
  | c :: _ => c.isDigit

/-- Modelled from the spec: Version::parse splits on the dot and parses
each segment, failing with an invalid-format error when a segment is not
numerically interpretable. -/
def Version.parse (s : String) : Option Version :=
  let segs := splitDots s.data
  if segs.all segOk then some ⟨segs.map segValue⟩ else none

/-- Comparison of the tail that overhangs an empty list: the empty side
is padded with zeros, so the result is driven by the first nonzero
component of the overhang. -/
def cmpZeroPad : List Nat → Ordering
  | [] => Ordering.eq
  | y :: ys => if 0 < y then Ordering.lt else cmpZeroPad ys

/-- Modelled from the spec: three-way comparison of component lists,
lexicographic most-significant first, the shorter list zero-padded to
the longer one's length. -/
def cmpComponents : List Nat → List Nat → Ordering
  | [], ys => cmpZeroPad ys
  | x :: xs, [] => if 0 < x then Ordering.gt else cmpComponents xs []
  | x :: xs, y :: ys =>
    if x < y then Ordering.lt
    else if y < x then Ordering.gt
    else cmpComponents xs ys

/-- Three-way comparison on versions (the derived Ord of the wrappers
InstallationVersion, VsInstallationVersion and WinSdkVersion). -/
def Version.cmp (a b : Version) : Ordering :=
  cmpComponents a.components b.components

/-- Strict order on versions. -/
def vlt (a b : Version) : Prop := Version.cmp a b = Ordering.lt

/-- Non-strict order on versions. -/
def vle (a b : Version) : Prop :=
  Version.cmp a b = Ordering.lt ∨ Version.cmp a b = Ordering.eq

instance (a b : Version) : Decidable (vlt a b) := by
  unfold vlt; infer_instance

instance (a b : Version) : Decidable (vle a b) := by
  unfold vle; infer_instance

theorem cmpComponents_refl (l : List Nat) : cmpComponents l l = Ordering.eq := by
  induction l with
  | nil => simp [cmpComponents, cmpZeroPad]
  | cons x xs ih => simp [cmpComponents, ih]

theorem cmpComponents_swap (a b : List Nat) :
    cmpComponents b a = (cmpComponents a b).swap := by
  induction a generalizing b with
  | nil =>
    induction b with
    | nil => simp [cmpComponents, cmpZeroPad, Ordering.swap]
    | cons y ys ihb =>
      simp only [cmpComponents, cmpZeroPad] at ihb ⊢
      by_cases hy : 0 < y <;> simp [hy, ihb, Ordering.swap]
  | cons x xs ih =>
    cases b with
    | nil =>
      simp only [cmpComponents, cmpZeroPad]
      by_cases hx : 0 < x
      · simp [hx, Ordering.swap]
      · have := ih []
        simp only [cmpComponents] at this
        simp [hx, this]
    | cons y ys =>
      simp only [cmpComponents]
      rcases Nat.lt_trichotomy x y with h | h | h
      · simp [h, Nat.lt_asymm h, Nat.ne_of_lt h, Ordering.swap]
      · subst h
        simp [Nat.lt_irrefl, ih ys]
      · simp [h, Nat.lt_asymm h, Nat.ne_of_lt h, Ordering.swap]

theorem cmpComponents_append_zero (a b : List Nat) :
    cmpComponents (a ++ [0]) b = cmpComponents a b := by
  induction a generalizing b with
  | nil =>
    cases b with
    | nil => simp [cmpComponents, cmpZeroPad]
    | cons y ys =>
      simp only [List.nil_append, cmpComponents, cmpZeroPad]
      by_cases hy : 0 < y
      · simp [hy]
      · have hy0 : y = 0 := Nat.eq_zero_of_not_pos hy
        subst hy0
        simp [cmpComponents]
  | cons x xs ih =>
    cases b with
    | nil =>
      simp only [List.cons_append, cmpComponents]
      by_cases hx : 0 < x <;> simp [hx, ih]
    | cons y ys =>
      simp only [List.cons_append, cmpComponents]
      rcases Nat.lt_trichotomy x y with h | h | h <;>
        simp [h, Nat.lt_asymm, Nat.ne_of_lt, ih]

theorem cmpComponents_zero_append (a b : List Nat) :
    cmpComponents a (b ++ [0]) = cmpComponents a b := by
  rw [cmpComponents_swap, cmpComponents_append_zero, ← cmpComponents_swap]

/-- Zero-padding a component list on the right. -/
def padTo (a : List Nat) (n : Nat) : List Nat :=
  a ++ List.replicate (n - a.length) 0

theorem cmpComponents_append_replicate (a b : List Nat) (k : Nat) :
    cmpComponents (a ++ List.replicate k 0) b = cmpComponents a b := by
  induction k generalizing a with
  | zero => simp
  | succ m ih =>
    have h1 : a ++ List.replicate (m + 1) 0 = (a ++ [0]) ++ List.replicate m 0 := by
      simp [List.replicate_succ]
    rw [h1, ih, cmpComponents_append_zero]

theorem cmpComponents_padTo (a b : List Nat) (n : Nat) :
    cmpComponents (padTo a n) (padTo b n) = cmpComponents a b := by
  unfold padTo
  rw [cmpComponents_append_replicate, cmpComponents_swap,
    cmpComponents_append_replicate, ← cmpComponents_swap]

theorem length_padTo (a : List Nat) (n : Nat) (h : a.length ≤ n) :
    (padTo a n).length = n := by
  simp [padTo]
  omega

theorem cmpComponents_eq_iff_of_length {a b : List Nat}
    (h : a.length = b.length) :
    cmpComponents a b = Ordering.eq ↔ a = b := by
  induction a generalizing b with
  | nil =>
    cases b with
    | nil => simp [cmpComponents, cmpZeroPad]
    | cons y ys => simp at h
  | cons x xs ih =>
    cases b with
    | nil => simp at h
    | cons y ys =>
      simp only [List.length_cons, Nat.add_right_cancel_iff] at h
      simp only [cmpComponents]
      rcases Nat.lt_trichotomy x y with hxy | hxy | hxy
      · simp [hxy, Nat.ne_of_lt hxy]
      · subst hxy
        simp [ih h]
      · simp [hxy, Nat.lt_asymm hxy, (Nat.ne_of_lt hxy).symm]

theorem cmpComponents_lt_trans_of_length {a b c : List Nat}
    (hab : a.length = b.length) (hbc : b.length = c.length)
    (h1 : cmpComponents a b = Ordering.lt)
    (h2 : cmpComponents b c = Ordering.lt) :
    cmpComponents a c = Ordering.lt := by
  induction a generalizing b c with
  | nil =>
    cases b with
    | nil => simp [cmpComponents, cmpZeroPad] at h1
    | cons y ys => simp at hab
  | cons x xs ih =>
    cases b with
    | nil => simp at hab
    | cons y ys =>
      cases c with
      | nil => simp at hbc
      | cons z zs =>
        simp only [List.length_cons, Nat.add_right_cancel_iff] at hab hbc
        simp only [cmpComponents] at h1 h2 ⊢
        by_cases hxy : x < y
        · by_cases hyz : y < z
          · simp [Nat.lt_trans hxy hyz]
          · by_cases hzy : z < y
            · simp [hyz, hzy] at h2
            · have : y = z := Nat.le_antisymm (Nat.le_of_not_lt hzy) (Nat.le_of_not_lt hyz)
              subst this
              simp [hxy]
        · by_cases hyx : y < x
          · simp [hxy, hyx] at h1
          · have hxyeq : x = y := Nat.le_antisymm (Nat.le_of_not_lt hyx) (Nat.le_of_not_lt hxy)
            subst hxyeq
            by_cases hyz : x < z
            · simp [hyz]
            · by_cases hzy : z < x
              · simp [hyz, hzy] at h2
              · have : x = z := Nat.le_antisymm (Nat.le_of_not_lt hzy) (Nat.le_of_not_lt hyz)
                subst this
                simp [Nat.lt_irrefl] at h1 h2 ⊢
                exact ih hab hbc h1 h2

theorem version_cmp_pad (a b : Version) (n : Nat) :
    Version.cmp a b = cmpComponents (padTo a.components n) (padTo b.components n) :=
  (cmpComponents_padTo a.components b.components n).symm

theorem pad_eq_of_cmp_eq {a b : Version} {n : Nat}
    (ha : a.components.length ≤ n) (hb : b.components.length ≤ n)
    (h : Version.cmp a b = Ordering.eq) :
    padTo a.components n = padTo b.components n := by
  have hlen : (padTo a.components n).length = (padTo b.components n).length := by
    rw [length_padTo _ _ ha, length_padTo _ _ hb]
  rw [version_cmp_pad a b n] at h
  exact (cmpComponents_eq_iff_of_length hlen).mp h

/-- Common padding length for three versions. -/
def padLen3 (a b c : Version) : Nat :=
  max (max a.components.length b.components.length) c.components.length

theorem padLen3_spec (a b c : Version) :
    a.components.length ≤ padLen3 a b c ∧ b.components.length ≤ padLen3 a b c ∧
      c.components.length ≤ padLen3 a b c :=
  ⟨Nat.le_trans (Nat.le_max_left _ _) (Nat.le_max_left _ _),
   Nat.le_trans (Nat.le_max_right _ _) (Nat.le_max_left _ _),
   Nat.le_max_right _ _⟩

theorem vlt_trans {a b c : Version} (h1 : vlt a b) (h2 : vlt b c) : vlt a c := by
  obtain ⟨ha, hb, hc⟩ := padLen3_spec a b c
  unfold vlt at *
  rw [version_cmp_pad a b (padLen3 a b c)] at h1
  rw [version_cmp_pad b c (padLen3 a b c)] at h2
  rw [version_cmp_pad a c (padLen3 a b c)]
  exact cmpComponents_lt_trans_of_length
    (by rw [length_padTo _ _ ha, length_padTo _ _ hb])
    (by rw [length_padTo _ _ hb, length_padTo _ _ hc]) h1 h2

theorem cmp_congr_right {a b c : Version} (h : Version.cmp b c = Ordering.eq) :
    Version.cmp a b = Version.cmp a c := by
  obtain ⟨ha, hb, hc⟩ := padLen3_spec a b c
  rw [version_cmp_pad a b (padLen3 a b c), version_cmp_pad a c (padLen3 a b c),
    pad_eq_of_cmp_eq hb hc h]

theorem cmp_congr_left {a b c : Version} (h : Version.cmp a b = Ordering.eq)
    : Version.cmp a c = Version.cmp b c := by
  obtain ⟨ha, hb, hc⟩ := padLen3_spec a b c
  rw [version_cmp_pad a c (padLen3 a b c), version_cmp_pad b c (padLen3 a b c),
    pad_eq_of_cmp_eq ha hb h]

theorem version_cmp_swap (a b : Version) :
    Version.cmp b a = (Version.cmp a b).swap :=
  cmpComponents_swap a.components b.components

theorem cmp_gt_iff_vlt {a b : Version} :
    Version.cmp a b = Ordering.gt ↔ vlt b a := by
  unfold vlt
  rw [version_cmp_swap b a]
  cases hc : Version.cmp b a <;> simp [Ordering.swap]

theorem cmp_eq_symm {a b : Version} (h : Version.cmp a b = Ordering.eq) :
    Version.cmp b a = Ordering.eq := by
  rw [version_cmp_swap a b, h]; rfl

theorem vle_refl (a : Version) : vle a a := by
  unfold vle Version.cmp
  exact Or.inr (cmpComponents_refl a.components)

theorem vle_trans {a b c : Version} (h1 : vle a b) (h2 : vle b c) : vle a c := by
  rcases h1 with h1 | h1 <;> rcases h2 with h2 | h2
  · exact Or.inl (vlt_trans h1 h2)
  · exact Or.inl (by show Version.cmp a c = Ordering.lt; rw [← cmp_congr_right h2]; exact h1)
  · exact Or.inl (by show Version.cmp a c = Ordering.lt; rw [cmp_congr_left h1]; exact h2)
  · exact Or.inr (by rw [cmp_congr_left h1]; exact h2)

theorem vlt_of_vle_of_vlt {a b c : Version} (h1 : vle a b) (h2 : vlt b c) : vlt a c := by
  rcases h1 with h1 | h1
  · exact vlt_trans h1 h2
  · show Version.cmp a c = Ordering.lt
    rw [cmp_congr_left h1]
    exact h2

theorem vlt_of_vlt_of_vle {a b c : Version} (h1 : vlt a b) (h2 : vle b c) : vlt a c := by
  rcases h2 with h2 | h2
  · exact vlt_trans h1 h2
  · show Version.cmp a c = Ordering.lt
    rw [← cmp_congr_right h2]
    exact h1

theorem vle_iff_not_gt {a b : Version} :
    vle a b ↔ Version.cmp a b ≠ Ordering.gt := by
  unfold vle
  cases Version.cmp a b <;> simp

theorem vle_of_cmp_not_lt {a b : Version} (h : Version.cmp a b ≠ Ordering.lt) :
    vle b a := by
  rw [vle_iff_not_gt, version_cmp_swap a b]
  cases hc : Version.cmp a b <;> simp [Ordering.swap, hc] at h ⊢

theorem vlt_irrefl (a : Version) : ¬ vlt a a := by
  unfold vlt Version.cmp
  rw [cmpComponents_refl a.components]
  simp

/-- Filesystem paths modelled as lists of components, mirroring
std::path::Path whose starts_with and join are component-wise. -/
abbrev MPath := List String

/-- Embedding of MsBuild::has_version_in_range (src/lib.rs): a version
is in range when it is below the exclusive max (if given) and at or
above the inclusive min (if given). -/
def has_version_in_range (version : Version) (max min : Option Version) : Bool :=
  let is_below_max : Bool := match max with
    | none => true
    | some max_version => Version.cmp max_version version == Ordering.gt
  let is_above_min : Bool := match min with
    | none => true
    | some min_version => !(Version.cmp version min_version == Ordering.lt)
  is_below_max && is_above_min

/-- One decoded vswhere instance record: the two fields the resolver
reads, each possibly missing (absent key or non-string json value). -/
structure InstanceRecord where
  installationPath : Option MPath
  installationVersion : Option String
deriving DecidableEq, Repr

/-- Embedding of MsBuild::parse_installation_version (src/lib.rs). -/
def parse_installation_version (r : InstanceRecord) : Option Version :=
  r.installationVersion.bind (fun s => Version.parse s)

/-- Embedding of MsBuild::parse_installation_path (src/lib.rs). -/
def parse_installation_path (r : InstanceRecord) : Option MPath :=
  r.installationPath

/-- Embedding of MsBuild::validate_instances_json (src/lib.rs): for
each record, parse the version; when it parses and is in range, parse
the path and keep the pair; any per-record failure is reported to the
diagnostic sink and the record is skipped. -/
def validate_instances_json (instances_json : List InstanceRecord)
    (max min : Option Version) : List (Version × MPath) :=
  instances_json.filterMap (fun i =>
    match parse_installation_version i with
    | none => none
    | some installation_version =>
      if has_version_in_range installation_version max min then
        (parse_installation_path i).map (fun installation_path =>
          (installation_version, installation_path))
      else none)

/-- One comparison step of Iterator::max_by_key: keep the accumulator
only when it is strictly greater, so a later equal element replaces an
earlier one. -/
def mbkStep (acc y : Version × MPath) : Version × MPath :=
  if Version.cmp acc.1 y.1 = Ordering.gt then acc else y

/-- Model of Iterator::max_by_key over the validated pairs, keyed by
the version: per the Rust documentation, when several elements are
equally maximum the last one is returned. -/
def max_by_key (l : List (Version × MPath)) : Option (Version × MPath) :=
  match l with
  | [] => none
  | x :: xs => some (xs.foldl mbkStep x)

/-- Embedding of MsBuild::find_match (src/lib.rs).  The value of the
VS_INSTALLATION_PATH environment variable is passed explicitly as
env_installation_path. -/
def find_match (instances_json : List InstanceRecord) (max min : Option Version)
    (env_installation_path : Option MPath) : Except ErrKind MPath :=
  let validated_instances := validate_instances_json instances_json max min
  match env_installation_path with
  | some specified_installation_path =>
    match (validated_instances.filterMap (fun vp =>
        if vp.2.isPrefixOf specified_installation_path then some vp.2
        else none)).head? with
    | some p => Except.ok p
    | none => Except.error ErrKind.notFound
  | none =>
    match max_by_key validated_instances with
    | some vp => Except.ok vp.2
    | none => Except.error ErrKind.notFound

theorem obeq_true_iff (o p : Ordering) : (o == p) = true ↔ o = p := by
  cases o <;> cases p <;> simp <;> decide

theorem obeq_false_iff (o p : Ordering) : (o == p) = false ↔ ¬ o = p := by
  cases o <;> cases p <;> simp <;> decide

theorem vle_iff_cmp_not_lt {a b : Version} :
    vle a b ↔ Version.cmp b a ≠ Ordering.lt := by
  rw [vle_iff_not_gt, version_cmp_swap b a]
  cases h : Version.cmp b a <;> simp [Ordering.swap]

theorem mbkStep_cases (acc y : Version × MPath) :
    mbkStep acc y = acc ∨ mbkStep acc y = y := by
  unfold mbkStep
  by_cases h : Version.cmp acc.1 y.1 = Ordering.gt <;> simp [h]

theorem mbkStep_of_not_gt {acc y : Version × MPath}
    (h : Version.cmp acc.1 y.1 ≠ Ordering.gt) : mbkStep acc y = y := by
  unfold mbkStep
  rw [if_neg h]

theorem foldl_mbkStep_mem (xs : List (Version × MPath)) :
    ∀ x, xs.foldl mbkStep x ∈ x :: xs := by
  induction xs with
  | nil => intro x; simp
  | cons y ys ih =>
    intro x
    rw [List.foldl_cons]
    have hm := ih (mbkStep x y)
    rcases List.mem_cons.mp hm with hm | hm
    · rcases mbkStep_cases x y with h | h
      · rw [hm, h]
        exact List.mem_cons_self _ _
      · rw [hm, h]
        exact List.mem_cons_of_mem _ (List.mem_cons_self _ _)
    · exact List.mem_cons_of_mem _ (List.mem_cons_of_mem _ hm)

theorem foldl_mbkStep_max (xs : List (Version × MPath)) :
    ∀ x, ∀ z ∈ x :: xs, vle z.1 (xs.foldl mbkStep x).1 := by
  induction xs with
  | nil =>
    intro x z hz
    simp at hz
    subst hz
    exact vle_refl _
  | cons y ys ih =>
    intro x z hz
    rw [List.foldl_cons]
    have step_le_x : vle x.1 (mbkStep x y).1 := by
      unfold mbkStep
      by_cases h : Version.cmp x.1 y.1 = Ordering.gt
      · simp [h]; exact vle_refl _
      · simp [h]
        exact vle_iff_not_gt.mpr h
    have step_le_y : vle y.1 (mbkStep x y).1 := by
      unfold mbkStep
      by_cases h : Version.cmp x.1 y.1 = Ordering.gt
      · simp [h]
        exact Or.inl (cmp_gt_iff_vlt.mp h)
      · simp [h]; exact vle_refl _
    rcases List.mem_cons.mp hz with hz | hz
    · rw [hz]
      exact vle_trans step_le_x (ih (mbkStep x y) _ (List.mem_cons_self _ _))
    · rcases List.mem_cons.mp hz with hz | hz
      · rw [hz]
        exact vle_trans step_le_y (ih (mbkStep x y) _ (List.mem_cons_self _ _))
      · exact ih (mbkStep x y) z (List.mem_cons_of_mem _ hz)

theorem foldl_mbkStep_fixed {l : List (Version × MPath)} {acc : Version × MPath}
    (h : ∀ z ∈ l, vlt z.1 acc.1) : l.foldl mbkStep acc = acc := by
  induction l with
  | nil => simp
  | cons y ys ih =>
    rw [List.foldl_cons]
    have hy : Version.cmp acc.1 y.1 = Ordering.gt :=
      cmp_gt_iff_vlt.mpr (h y (List.mem_cons_self _ _))
    have : mbkStep acc y = acc := by simp [mbkStep, hy]
    rw [this]
    exact ih (fun z hz => h z (List.mem_cons_of_mem _ hz))

theorem max_by_key_mem {l : List (Version × MPath)} {e : Version × MPath}
    (h : max_by_key l = some e) : e ∈ l := by
  cases l with
  | nil => simp [max_by_key] at h
  | cons x xs =>
    simp only [max_by_key, Option.some_inj] at h
    rw [← h]
    exact foldl_mbkStep_mem xs x

theorem max_by_key_is_max {l : List (Version × MPath)} {e : Version × MPath}
    (h : max_by_key l = some e) : ∀ z ∈ l, vle z.1 e.1 := by
  cases l with
  | nil => simp [max_by_key] at h
  | cons x xs =>
    simp only [max_by_key, Option.some_inj] at h
    rw [← h]
    exact foldl_mbkStep_max xs x

theorem max_by_key_last_of_ties {l1 l2 : List (Version × MPath)}
    {e : Version × MPath}
    (h1 : ∀ z ∈ l1, vle z.1 e.1) (h2 : ∀ z ∈ l2, vlt z.1 e.1) :
    max_by_key (l1 ++ e :: l2) = some e := by
  cases l1 with
  | nil =>
    simp only [List.nil_append, max_by_key, Option.some_inj]
    exact foldl_mbkStep_fixed h2
  | cons x t =>
    have ha : t.foldl mbkStep x ∈ x :: t := foldl_mbkStep_mem t x
    have hle : vle (t.foldl mbkStep x).1 e.1 := h1 _ ha
    have hne : Version.cmp (t.foldl mbkStep x).1 e.1 ≠ Ordering.gt :=
      vle_iff_not_gt.mp hle
    have hstep : mbkStep (t.foldl mbkStep x) e = e := mbkStep_of_not_gt hne
    show max_by_key ((x :: t) ++ e :: l2) = some e
    simp only [List.cons_append, max_by_key, Option.some_inj]
    rw [List.foldl_append, List.foldl_cons, hstep]
    exact foldl_mbkStep_fixed h2

/-- Path of the VS 14.0 candidate of the unit tests. -/
def pathA : MPath := ["C:", "Program Files (x86)", "Microsoft Visual Studio 14.0"]

/-- Path of the 2022 Community candidate (version 17.12.35506.116). -/
def pathB : MPath := ["C:", "Program Files", "Microsoft Visual Studio", "2022", "Community"]

/-- Path of the 2022 Enterprise candidate (version 17.08.35506.116). -/
def pathC : MPath := ["C:", "Program Files", "Microsoft Visual Studio", "2022", "Enterprise"]

/-- Candidate A of the unit tests (version 14.0). -/
def instA : InstanceRecord := ⟨some pathA, some "14.0"⟩

/-- Candidate B of the unit tests (version 17.12.35506.116). -/
def instB : InstanceRecord := ⟨some pathB, some "17.12.35506.116"⟩

/-- Candidate C of the unit tests (version 17.08.35506.116). -/
def instC : InstanceRecord := ⟨some pathC, some "17.08.35506.116"⟩

/-- Exclusive upper range bound 18.0. -/
def v18_0 : Version := ⟨[18, 0]⟩

/-- Inclusive lower range bound 17.7. -/
def v17_7 : Version := ⟨[17, 7]⟩

/-- C3: for every version v and optional bounds, the range test returns
(max absent OR max greater than v) AND (min absent OR v at least min);
the upper bound is exclusive, the lower bound inclusive, and an absent
bound excludes nothing, so with both bounds absent every version is in
range. -/
theorem msbuild_range_policy (v : Version) (max min : Option Version) :
    (has_version_in_range v max min = true ↔
      ((∀ m, max = some m → vlt v m) ∧ (∀ m, min = some m → vle m v)))
    ∧ has_version_in_range v (some v) none = false
    ∧ has_version_in_range v none (some v) = true
    ∧ has_version_in_range v none none = true := by
  refine ⟨?_, ?_, ?_, rfl⟩
  · unfold has_version_in_range
    cases max with
    | none =>
      cases min with
      | none => simp
      | some mn => simp [vle_iff_cmp_not_lt, obeq_false_iff]
    | some mx =>
      cases min with
      | none => simp [cmp_gt_iff_vlt, obeq_true_iff]
      | some mn =>
        simp [cmp_gt_iff_vlt, vle_iff_cmp_not_lt, obeq_true_iff, obeq_false_iff]
  · show ((Version.cmp v v == Ordering.gt) && true) = false
    have h : Version.cmp v v = Ordering.eq := cmpComponents_refl v.components
    rw [h]
    decide
  · show (true && !(Version.cmp v v == Ordering.lt)) = true
    have h : Version.cmp v v = Ordering.eq := cmpComponents_refl v.components
    rw [h]
    decide

/-- C1: with the override variable absent, find_match returns the path
of the maximum-version candidate among the range-filtered candidates,
fails with NotFound when that set is empty, and on the three test
candidates with range min 17.7 (inclusive), max 18.0 (exclusive) it
returns the path of the 17.12.35506.116 candidate. -/
theorem msbuild_resolver_max_selection (instances : List InstanceRecord)
    (max min : Option Version) :
    (validate_instances_json instances max min = [] →
      find_match instances max min none = Except.error ErrKind.notFound)
    ∧ (∀ p, find_match instances max min none = Except.ok p →
      ∃ v, (v, p) ∈ validate_instances_json instances max min ∧
        ∀ z ∈ validate_instances_json instances max min, vle z.1 v)
    ∧ (validate_instances_json instances max min ≠ [] →
      ∃ p, find_match instances max min none = Except.ok p)
    ∧ find_match [instA, instB, instC] (some v18_0) (some v17_7) none =
        Except.ok pathB := by
  refine ⟨?_, ?_, ?_, rfl⟩
  · intro hempty
    simp only [find_match, hempty, max_by_key]
  · intro p hp
    simp only [find_match] at hp
    cases hm : max_by_key (validate_instances_json instances max min) with
    | none => rw [hm] at hp; simp at hp
    | some vp =>
      rw [hm] at hp
      simp only [Except.ok.injEq] at hp
      refine ⟨vp.1, ?_, ?_⟩
      · rw [← hp]
        simpa using max_by_key_mem hm
      · intro z hz
        exact max_by_key_is_max hm z hz
  · intro hne
    cases hv : validate_instances_json instances max min with
    | nil => exact absurd hv hne
    | cons x xs =>
      refine ⟨(xs.foldl mbkStep x).2, ?_⟩
      simp only [find_match, hv, max_by_key]

/-- Closed instance of msbuild_resolver_max_selection: an empty batch
resolves to NotFound, and the concrete three-candidate resolution is a
range-filtered candidate that is maximal. -/
theorem msbuild_resolver_max_selection_witness :
    find_match [] none none none = Except.error ErrKind.notFound ∧
    ∃ v, (v, pathB) ∈
        validate_instances_json [instA, instB, instC] (some v18_0) (some v17_7) ∧
      ∀ z ∈ validate_instances_json [instA, instB, instC] (some v18_0) (some v17_7),
        vle z.1 v :=
  ⟨(msbuild_resolver_max_selection [] none none).1 rfl,
   (msbuild_resolver_max_selection [instA, instB, instC]
      (some v18_0) (some v17_7)).2.1 pathB rfl⟩

/-- C2: with the override set, find_match selects only among the
range-filtered candidates a path that is a prefix of the override path,
fails with NotFound when none matches, returns C (not the higher B) for
an override under C, and returns NotFound for an override under the
out-of-range A. -/
theorem msbuild_resolver_override (instances : List InstanceRecord)
    (max min : Option Version) (sp : MPath) :
    (∀ p, find_match instances max min (some sp) = Except.ok p →
      ∃ v, (v, p) ∈ validate_instances_json instances max min ∧
        p.isPrefixOf sp = true)
    ∧ ((∀ z ∈ validate_instances_json instances max min,
          z.2.isPrefixOf sp = false) →
      find_match instances max min (some sp) = Except.error ErrKind.notFound)
    ∧ ((∃ z ∈ validate_instances_json instances max min,
          z.2.isPrefixOf sp = true) →
      ∃ p, find_match instances max min (some sp) = Except.ok p)
    ∧ find_match [instA, instB, instC] (some v18_0) (some v17_7)
        (some (pathC ++ ["MSBuild", "Current"])) = Except.ok pathC
    ∧ find_match [instA, instB, instC] (some v18_0) (some v17_7)
        (some (pathA ++ ["MSBuild", "Current"])) = Except.error ErrKind.notFound := by
  refine ⟨?_, ?_, ?_, rfl, rfl⟩
  · intro p hp
    simp only [find_match] at hp
    cases hh : ((validate_instances_json instances max min).filterMap (fun vp =>
        if vp.2.isPrefixOf sp then some vp.2 else none)).head? with
    | none => rw [hh] at hp; simp at hp
    | some q =>
      rw [hh] at hp
      simp only [Except.ok.injEq] at hp
      have hqmem : q ∈ (validate_instances_json instances max min).filterMap
          (fun vp => if vp.2.isPrefixOf sp then some vp.2 else none) := by
        cases hl : (validate_instances_json instances max min).filterMap (fun vp =>
            if vp.2.isPrefixOf sp then some vp.2 else none) with
        | nil => rw [hl] at hh; simp at hh
        | cons a t =>
          rw [hl] at hh
          simp only [List.head?_cons, Option.some_inj] at hh
          rw [hh]
          exact List.mem_cons_self _ _
      rcases List.mem_filterMap.mp hqmem with ⟨z, hz, hfz⟩
      by_cases hpre : z.2.isPrefixOf sp
      · rw [if_pos hpre] at hfz
        refine ⟨z.1, ?_, ?_⟩
        · rw [← hp, ← Option.some_inj.mp hfz]
          exact hz
        · rw [← hp, ← Option.some_inj.mp hfz]
          exact hpre
      · rw [if_neg hpre] at hfz
        exact absurd hfz (Option.noConfusion)
  · intro hall
    have hnil : (validate_instances_json instances max min).filterMap (fun vp =>
        if vp.2.isPrefixOf sp then some vp.2 else none) = [] := by
      rw [List.filterMap_eq_nil_iff]
      intro z hz
      rw [if_neg (by simp [hall z hz])]
    simp only [find_match, hnil, List.head?_nil]
  · rintro ⟨z, hz, hpre⟩
    have hmm : z.2 ∈ (validate_instances_json instances max min).filterMap
        (fun vp => if vp.2.isPrefixOf sp then some vp.2 else none) :=
      List.mem_filterMap.mpr ⟨z, hz, by rw [if_pos hpre]⟩
    cases hh : ((validate_instances_json instances max min).filterMap (fun vp =>
        if vp.2.isPrefixOf sp then some vp.2 else none)).head? with
    | none =>
      rw [List.head?_eq_none_iff] at hh
      rw [hh] at hmm
      exact absurd hmm (List.not_mem_nil _)
    | some q =>
      exact ⟨q, by simp only [find_match, hh]⟩

/-- Closed instance of msbuild_resolver_override: the override under C
selects C among the range-filtered candidates, and an override under
nothing yields NotFound. -/
theorem msbuild_resolver_override_witness :
    (∃ v, (v, pathC) ∈
        validate_instances_json [instA, instB, instC] (some v18_0) (some v17_7) ∧
      pathC.isPrefixOf (pathC ++ ["MSBuild", "Current"]) = true) ∧
    find_match [instA, instB, instC] (some v18_0) (some v17_7) (some ["X"]) =
      Except.error ErrKind.notFound :=
  ⟨(msbuild_resolver_override [instA, instB, instC] (some v18_0) (some v17_7)
      (pathC ++ ["MSBuild", "Current"])).1 pathC rfl,
   (msbuild_resolver_override [instA, instB, instC] (some v18_0) (some v17_7)
      ["X"]).2.1 (by decide)⟩

/-- First tied candidate (version 17.5). -/
def pathT1 : MPath := ["C:", "VS", "One"]

/-- Second tied candidate (version 17.5). -/
def pathT2 : MPath := ["C:", "VS", "Two"]

/-- Record of the first tied candidate. -/
def instT1 : InstanceRecord := ⟨some pathT1, some "17.5"⟩

/-- Record of the second tied candidate. -/
def instT2 : InstanceRecord := ⟨some pathT2, some "17.5"⟩

/-- Version 17.5, shared by the two tied candidates. -/
def v17_5 : Version := ⟨[17, 5]⟩

/-- C9: batch validation preserves input order (it distributes over
append), max_by_key returns the last of equal-maximum elements, so
with no override and tied maximum versions the resolver returns the
path of the last tied candidate in input order. -/
theorem msbuild_resolver_tie_last (instances rs1 rs2 : List InstanceRecord)
    (max min : Option Version) (l1 l2 : List (Version × MPath))
    (e : Version × MPath) :
    (validate_instances_json instances max min = l1 ++ e :: l2 →
      (∀ z ∈ l1, vle z.1 e.1) → (∀ z ∈ l2, vlt z.1 e.1) →
      find_match instances max min none = Except.ok e.2)
    ∧ validate_instances_json (rs1 ++ rs2) max min =
        validate_instances_json rs1 max min ++ validate_instances_json rs2 max min
    ∧ find_match [instT1, instT2] none none none = Except.ok pathT2 := by
  refine ⟨?_, ?_, rfl⟩
  · intro hval h1 h2
    simp only [find_match, hval, max_by_key_last_of_ties h1 h2]
  · simp [validate_instances_json, List.filterMap_append]

/-- Closed instance of msbuild_resolver_tie_last: two candidates with
the identical version 17.5 resolve to the path of the second one. -/
theorem msbuild_resolver_tie_last_witness :
    find_match [instT1, instT2] none none none = Except.ok (v17_5, pathT2).2 :=
  (msbuild_resolver_tie_last [instT1, instT2] [] [] none none
      [(v17_5, pathT1)] [] (v17_5, pathT2)).1 rfl (by decide) (by decide)

/-- Record whose path field is missing (version 17.9.1.2, in range). -/
def instNoPath : InstanceRecord := ⟨none, some "17.9.1.2"⟩

/-- C5: batch validation never fails as a whole; a record with a
missing or unparseable version, or a missing path, is skipped, an
in-range extracted pair is kept, an out-of-range pair is dropped, and a
record missing its path mixed into a valid batch leaves exactly the
valid in-range candidates. -/
theorem msbuild_batch_validation (r : InstanceRecord) (rs : List InstanceRecord)
    (max min : Option Version) :
    (parse_installation_version r = none →
      validate_instances_json (r :: rs) max min = validate_instances_json rs max min)
    ∧ (∀ v, parse_installation_version r = some v →
      has_version_in_range v max min = false →
      validate_instances_json (r :: rs) max min = validate_instances_json rs max min)
    ∧ (∀ v, parse_installation_version r = some v →
      parse_installation_path r = none →
      validate_instances_json (r :: rs) max min = validate_instances_json rs max min)
    ∧ (∀ v p, parse_installation_version r = some v →
      has_version_in_range v max min = true →
      parse_installation_path r = some p →
      validate_instances_json (r :: rs) max min =
        (v, p) :: validate_instances_json rs max min)
    ∧ validate_instances_json [instB, instNoPath, instC] (some v18_0) (some v17_7) =
        [(⟨[17, 12, 35506, 116]⟩, pathB), (⟨[17, 8, 35506, 116]⟩, pathC)] := by
  refine ⟨?_, ?_, ?_, ?_, rfl⟩
  · intro h
    simp [validate_instances_json, List.filterMap_cons, h]
  · intro v hv hr
    simp [validate_instances_json, List.filterMap_cons, hv, hr]
  · intro v hv hp
    simp [validate_instances_json, List.filterMap_cons, hv, hp]
  · intro v p hv hr hp
    simp [validate_instances_json, List.filterMap_cons, hv, hr, hp]

/-- Closed instance of msbuild_batch_validation: a record missing its
path is skipped, a valid in-range record is kept. -/
theorem msbuild_batch_validation_witness :
    validate_instances_json [instNoPath] (some v18_0) (some v17_7) =
      validate_instances_json [] (some v18_0) (some v17_7) ∧
    validate_instances_json [instB] (some v18_0) (some v17_7) =
      (⟨[17, 12, 35506, 116]⟩, pathB) ::
        validate_instances_json [] (some v18_0) (some v17_7) :=
  ⟨(msbuild_batch_validation instNoPath [] (some v18_0) (some v17_7)).2.2.1
      ⟨[17, 9, 1, 2]⟩ rfl rfl,
   (msbuild_batch_validation instB [] (some v18_0) (some v17_7)).2.2.2.1
      ⟨[17, 12, 35506, 116]⟩ pathB rfl rfl rfl⟩

/-- Filesystem model: which paths exist as directories and which exist
as non-directory entries, each path being its list of components. -/
structure FS where
  dirs : List MPath
  files : List MPath
deriving DecidableEq, Repr

/-- Does the path exist as a directory (the model of Path::is_dir). -/
def FS.isDir (fs : FS) (p : MPath) : Bool := fs.dirs.contains p

/-- Names of the immediate children of a directory, both directories
and non-directory entries: the model of read_dir. -/
def FS.childNames (fs : FS) (p : MPath) : List String :=
  (fs.dirs ++ fs.files).filterMap (fun q =>
    if q.length = p.length + 1 ∧ q.take p.length = p then q.getLast? else none)

/-- Embedding of sub_directory (src/vs_paths.rs and src/win_sdk.rs):
joins parent with dir and verifies the result is a directory, failing
with a NotFound error otherwise. -/
def sub_directory (fs : FS) (parent : MPath) (dir : String) :
    Except ErrKind MPath :=
  let sub_dir := parent ++ [dir]
  if fs.isDir sub_dir then Except.ok sub_dir
  else Except.error ErrKind.notFound

/-- Embedding of the WinSdkIncludes struct (src/win_sdk.rs): the five
include paths of a Windows SDK revision. -/
structure WinSdkIncludes where
  cppwinrt : MPath
  shared : MPath
  ucrt : MPath
  um : MPath
  winrt : MPath
deriving DecidableEq, Repr

/-- The fixed closed set of required child directory names of an SDK
include tree (WinSdkIncludes::EXPECTED_DIRS). -/
def WinSdkIncludes.EXPECTED_DIRS : List String :=
  ["cppwinrt", "shared", "ucrt", "um", "winrt"]

/-- Embedding of WinSdkIncludes::is_valid (src/win_sdk.rs): the path is
a directory and no expected child name fails to be a directory. -/
def WinSdkIncludes.is_valid (fs : FS) (path : MPath) : Bool :=
  fs.isDir path && !(EXPECTED_DIRS.any (fun s => !(fs.isDir (path ++ [s]))))

/-- Embedding of WinSdkIncludes::create (src/win_sdk.rs): each of the
five sub directories in order, the first NotFound aborting. -/
def WinSdkIncludes.create (fs : FS) (include_path : MPath) :
    Except ErrKind WinSdkIncludes :=
  match sub_directory fs include_path "cppwinrt" with
  | Except.error e => Except.error e
  | Except.ok cppwinrt =>
    match sub_directory fs include_path "shared" with
    | Except.error e => Except.error e
    | Except.ok shared =>
      match sub_directory fs include_path "ucrt" with
      | Except.error e => Except.error e
      | Except.ok ucrt =>
        match sub_directory fs include_path "um" with
        | Except.error e => Except.error e
        | Except.ok um =>
          match sub_directory fs include_path "winrt" with
          | Except.error e => Except.error e
          | Except.ok winrt => Except.ok ⟨cppwinrt, shared, ucrt, um, winrt⟩

/-- Parsed version of the final path component: the composition
file_name / to_str / parse used by the SDK enumeration. -/
def parseLast (d : MPath) : Option Version :=
  d.getLast?.bind (fun s => Version.parse s)

/-- Embedding of WinSdk::is_valid_versioned_subdir (src/win_sdk.rs):
the final component parses as a version that is in range. -/
def is_valid_versioned_subdir (path : MPath) (max min : Option Version) : Bool :=
  match parseLast path with
  | none => false
  | some win_sdk_ver => has_version_in_range win_sdk_ver max min

/-- The filtered list built inside WinSdk::include_versioned_subdirs:
directory entries of the search directory (as_valid_path), kept when
their name parses as an in-range version and when they pass the
structural include check. -/
def sdk_found (fs : FS) (search_dir : MPath) (max min : Option Version) :
    List MPath :=
  (((fs.childNames search_dir).filterMap (fun n =>
      if fs.isDir (search_dir ++ [n]) then some (search_dir ++ [n])
      else none)).filter
    (fun path => is_valid_versioned_subdir path max min)).filter
    (fun path => WinSdkIncludes.is_valid fs path)

/-- Embedding of WinSdk::include_versioned_subdirs (src/win_sdk.rs):
list the Include child, keep entries that are directories, whose name
parses as an in-range version and which pass the structural include
check; fail with NotFound when the Include child is missing or when the
filtered list is empty. -/
def include_versioned_subdirs (fs : FS) (parent : MPath)
    (max min : Option Version) : Except ErrKind (List MPath) :=
  match sub_directory fs parent "Include" with
  | Except.error e => Except.error e
  | Except.ok search_dir =>
    let found := sdk_found fs search_dir max min
    if found.isEmpty then Except.error ErrKind.notFound
    else Except.ok found

/-- Insertion into the BTreeMap model, a sorted association list over
the version key: inserting an equal key keeps the original key and
replaces the value, the behavior of BTreeMap::insert. -/
def insertSorted (v : Version) (p : MPath) :
    List (Version × MPath) → List (Version × MPath)
  | [] => [(v, p)]
  | e :: rest =>
    match Version.cmp v e.1 with
    | Ordering.lt => (v, p) :: e :: rest
    | Ordering.eq => (e.1, p) :: rest
    | Ordering.gt => e :: insertSorted v p rest

/-- Iterated map insertion over the directory list; none models the
panic of the unwrap when a directory name does not parse. -/
def vdm_fold : List MPath → List (Version × MPath) →
    Option (List (Version × MPath))
  | [], m => some m
  | d :: ds, m =>
    match parseLast d with
    | none => none
    | some v => vdm_fold ds (insertSorted v d m)

/-- Embedding of WinSdk::versioned_directory_map (src/win_sdk.rs):
collect each directory keyed by its parsed file name into a BTreeMap,
modelled as a sorted association list. -/
def versioned_directory_map (version_dirs : List MPath) :
    Option (List (Version × MPath)) :=
  vdm_fold version_dirs []

/-- Result of WinSdk::select_sdk: a WinSdkIncludes on success, an io
error, or the panic of one of the two unwraps. -/
inductive SdkResult where
  | ok (include_dirs : WinSdkIncludes)
  | err (k : ErrKind)
  | panic
deriving DecidableEq, Repr

/-- Embedding of WinSdk::select_sdk (src/win_sdk.rs): build the version
map, take its last (maximum-key) entry and create the include set from
its directory; the two unwraps surface as panic. -/
def select_sdk (fs : FS) (versioned_include_dirs : List MPath) : SdkResult :=
  match versioned_directory_map versioned_include_dirs with
  | none => SdkResult.panic
  | some m =>
    match m.getLast? with
    | none => SdkResult.panic
    | some vd =>
      match WinSdkIncludes.create fs vd.2 with
      | Except.ok inc => SdkResult.ok inc
      | Except.error k => SdkResult.err k

theorem mem_of_getLast?_eq {α : Type} {l : List α} {e : α}
    (h : l.getLast? = some e) : e ∈ l := by
  have hx : e ∈ l.getLast? := h
  rcases List.mem_getLast?_eq_getLast hx with ⟨hne, heq⟩
  rw [heq]
  exact List.getLast_mem hne

theorem insertSorted_ne_nil (v : Version) (p : MPath)
    (m : List (Version × MPath)) : insertSorted v p m ≠ [] := by
  cases m with
  | nil => simp [insertSorted]
  | cons e rest =>
    simp only [insertSorted]
    cases Version.cmp v e.1 <;> simp

theorem insertSorted_key_mem {v : Version} {p : MPath} :
    ∀ {m : List (Version × MPath)} {z : Version × MPath},
      z ∈ insertSorted v p m → z.1 = v ∨ ∃ w ∈ m, z.1 = w.1 := by
  intro m
  induction m with
  | nil =>
    intro z hz
    simp [insertSorted] at hz
    left
    rw [hz]
  | cons e rest ih =>
    intro z hz
    simp only [insertSorted] at hz
    cases hc : Version.cmp v e.1 <;> rw [hc] at hz
    · rcases List.mem_cons.mp hz with hz | hz
      · left; rw [hz]
      · right; exact ⟨z, hz, rfl⟩
    · rcases List.mem_cons.mp hz with hz | hz
      · right
        exact ⟨e, List.mem_cons_self _ _, by rw [hz]⟩
      · right
        exact ⟨z, List.mem_cons_of_mem _ hz, rfl⟩
    · rcases List.mem_cons.mp hz with hz | hz
      · right
        exact ⟨e, List.mem_cons_self _ _, by rw [hz]⟩
      · rcases ih hz with h | ⟨w, hw, he⟩
        · left; exact h
        · right; exact ⟨w, List.mem_cons_of_mem _ hw, he⟩

theorem insertSorted_value_mem {v : Version} {p : MPath} :
    ∀ {m : List (Version × MPath)} {z : Version × MPath},
      z ∈ insertSorted v p m → z.2 = p ∨ z ∈ m := by
  intro m
  induction m with
  | nil =>
    intro z hz
    simp [insertSorted] at hz
    left
    rw [hz]
  | cons e rest ih =>
    intro z hz
    simp only [insertSorted] at hz
    cases hc : Version.cmp v e.1 <;> rw [hc] at hz
    · rcases List.mem_cons.mp hz with hz | hz
      · left; rw [hz]
      · right; exact hz
    · rcases List.mem_cons.mp hz with hz | hz
      · left; rw [hz]
      · right; exact List.mem_cons_of_mem _ hz
    · rcases List.mem_cons.mp hz with hz | hz
      · right; rw [hz]; exact List.mem_cons_self _ _
      · rcases ih hz with h | h
        · left; exact h
        · right; exact List.mem_cons_of_mem _ h

theorem insertSorted_pairwise {v : Version} {p : MPath} :
    ∀ {m : List (Version × MPath)},
      m.Pairwise (fun a b => vlt a.1 b.1) →
      (insertSorted v p m).Pairwise (fun a b => vlt a.1 b.1) := by
  intro m
  induction m with
  | nil =>
    intro _
    simp [insertSorted]
  | cons e rest ih =>
    intro hm
    rcases List.pairwise_cons.mp hm with ⟨he, hrest⟩
    simp only [insertSorted]
    cases hc : Version.cmp v e.1
    · refine List.pairwise_cons.mpr ⟨?_, hm⟩
      intro b hb
      rcases List.mem_cons.mp hb with hb | hb
      · rw [hb]; exact hc
      · exact vlt_trans hc (he b hb)
    · exact List.pairwise_cons.mpr ⟨fun b hb => he b hb, hrest⟩
    · refine List.pairwise_cons.mpr ⟨?_, ih hrest⟩
      intro b hb
      rcases insertSorted_key_mem hb with hb1 | ⟨w, hw, hb1⟩
      · rw [hb1]
        exact cmp_gt_iff_vlt.mp hc
      · rw [hb1]
        exact he w hw

theorem insertSorted_keeps {v : Version} {p : MPath} :
    ∀ {m : List (Version × MPath)} {z : Version × MPath}, z ∈ m →
      ∃ w ∈ insertSorted v p m, z.1 = w.1 := by
  intro m
  induction m with
  | nil => intro z hz; simp at hz
  | cons e rest ih =>
    intro z hz
    simp only [insertSorted]
    cases hc : Version.cmp v e.1
    · exact ⟨z, List.mem_cons_of_mem _ hz, rfl⟩
    · rcases List.mem_cons.mp hz with hz | hz
      · exact ⟨(e.1, p), List.mem_cons_self _ _, by rw [hz]⟩
      · exact ⟨z, List.mem_cons_of_mem _ hz, rfl⟩
    · rcases List.mem_cons.mp hz with hz | hz
      · exact ⟨e, List.mem_cons_self _ _, by rw [hz]⟩
      · rcases ih hz with ⟨w, hw, he⟩
        exact ⟨w, List.mem_cons_of_mem _ hw, he⟩

theorem insertSorted_self (v : Version) (p : MPath) :
    ∀ (m : List (Version × MPath)), ∃ w ∈ insertSorted v p m, vle v w.1 := by
  intro m
  induction m with
  | nil => exact ⟨(v, p), by simp [insertSorted], vle_refl v⟩
  | cons e rest ih =>
    simp only [insertSorted]
    cases hc : Version.cmp v e.1
    · exact ⟨(v, p), List.mem_cons_self _ _, vle_refl v⟩
    · exact ⟨(e.1, p), List.mem_cons_self _ _, Or.inr hc⟩
    · rcases ih with ⟨w, hw, hle⟩
      exact ⟨w, List.mem_cons_of_mem _ hw, hle⟩

theorem pairwise_getLast_max :
    ∀ {m : List (Version × MPath)},
      m.Pairwise (fun a b => vlt a.1 b.1) → ∀ {e : Version × MPath},
      m.getLast? = some e → ∀ z ∈ m, vle z.1 e.1 := by
  intro m
  induction m with
  | nil => intro _ e he; simp at he
  | cons x rest ih =>
    intro hm e he z hz
    cases rest with
    | nil =>
      simp only [List.getLast?_singleton, Option.some_inj] at he
      simp only [List.mem_singleton] at hz
      rw [hz, he]
      exact vle_refl _
    | cons y t =>
      rw [List.getLast?_cons_cons] at he
      rcases List.pairwise_cons.mp hm with ⟨hx, hrest⟩
      rcases List.mem_cons.mp hz with hz | hz
      · have hemem : e ∈ y :: t := mem_of_getLast?_eq he
        rw [hz]
        exact Or.inl (hx e hemem)
      · exact ih hrest he z hz

theorem vdm_fold_pairwise :
    ∀ {ds : List MPath} {m0 m : List (Version × MPath)},
      m0.Pairwise (fun a b => vlt a.1 b.1) → vdm_fold ds m0 = some m →
      m.Pairwise (fun a b => vlt a.1 b.1) := by
  intro ds
  induction ds with
  | nil =>
    intro m0 m hm0 h
    simp only [vdm_fold, Option.some_inj] at h
    rw [← h]
    exact hm0
  | cons d ds ih =>
    intro m0 m hm0 h
    simp only [vdm_fold] at h
    cases hp : parseLast d <;> rw [hp] at h
    · simp at h
    · exact ih (insertSorted_pairwise hm0) h

theorem vdm_fold_values :
    ∀ {ds : List MPath} {m0 m : List (Version × MPath)},
      vdm_fold ds m0 = some m → ∀ z ∈ m, z ∈ m0 ∨ z.2 ∈ ds := by
  intro ds
  induction ds with
  | nil =>
    intro m0 m h z hz
    simp only [vdm_fold, Option.some_inj] at h
    rw [← h] at hz
    exact Or.inl hz
  | cons d ds ih =>
    intro m0 m h z hz
    simp only [vdm_fold] at h
    cases hp : parseLast d <;> rw [hp] at h
    · simp at h
    · rcases ih h z hz with hm | hm
      · rcases insertSorted_value_mem hm with hv | hv
        · right; rw [hv]; exact List.mem_cons_self _ _
        · left; exact hv
      · right; exact List.mem_cons_of_mem _ hm

theorem vdm_fold_keeps :
    ∀ {ds : List MPath} {m0 m : List (Version × MPath)},
      vdm_fold ds m0 = some m → ∀ z ∈ m0, ∃ w ∈ m, z.1 = w.1 := by
  intro ds
  induction ds with
  | nil =>
    intro m0 m h z hz
    simp only [vdm_fold, Option.some_inj] at h
    rw [← h]
    exact ⟨z, hz, rfl⟩
  | cons d ds ih =>
    intro m0 m h z hz
    simp only [vdm_fold] at h
    cases hp : parseLast d <;> rw [hp] at h
    · simp at h
    · rcases insertSorted_keeps hz with ⟨w0, hw0, he0⟩
      rcases ih h w0 hw0 with ⟨w, hw, he⟩
      exact ⟨w, hw, he0.trans he⟩

theorem vdm_fold_covers :
    ∀ {ds : List MPath} {m0 m : List (Version × MPath)},
      vdm_fold ds m0 = some m → ∀ d ∈ ds, ∀ v, parseLast d = some v →
      ∃ w ∈ m, vle v w.1 := by
  intro ds
  induction ds with
  | nil => intro m0 m _ d hd; simp at hd
  | cons d0 ds ih =>
    intro m0 m h d hd v hv
    simp only [vdm_fold] at h
    cases hp : parseLast d0 <;> rw [hp] at h
    · simp at h
    · rcases List.mem_cons.mp hd with hd | hd
      · rename_i v0
        rw [hd] at hv
        rw [hp] at hv
        rcases insertSorted_self v0 d0 m0 with ⟨w0, hw0, hle0⟩
        rcases vdm_fold_keeps h w0 hw0 with ⟨w, hw, he⟩
        refine ⟨w, hw, ?_⟩
        rw [← Option.some_inj.mp hv, ← he]
        exact hle0
      · exact ih h d hd v hv

theorem vdm_fold_ne_nil :
    ∀ {ds : List MPath} {m0 m : List (Version × MPath)},
      vdm_fold ds m0 = some m → (m0 ≠ [] ∨ ds ≠ []) → m ≠ [] := by
  intro ds
  induction ds with
  | nil =>
    intro m0 m h hne
    simp only [vdm_fold, Option.some_inj] at h
    rcases hne with hne | hne
    · rw [← h]; exact hne
    · exact absurd rfl hne
  | cons d ds ih =>
    intro m0 m h _
    simp only [vdm_fold] at h
    cases hp : parseLast d <;> rw [hp] at h
    · simp at h
    · exact ih h (Or.inl (insertSorted_ne_nil _ _ _))

theorem vdm_fold_total :
    ∀ {ds : List MPath} (m0 : List (Version × MPath)),
      (∀ d ∈ ds, ∃ v, parseLast d = some v) →
      ∃ m, vdm_fold ds m0 = some m := by
  intro ds
  induction ds with
  | nil => intro m0 _; exact ⟨m0, rfl⟩
  | cons d ds ih =>
    intro m0 hall
    rcases hall d (List.mem_cons_self _ _) with ⟨v, hv⟩
    simp only [vdm_fold, hv]
    exact ih _ (fun d' hd' => hall d' (List.mem_cons_of_mem _ hd'))

theorem mem_sdk_found {fs : FS} {sd : MPath} {max min : Option Version}
    {p : MPath} :
    p ∈ sdk_found fs sd max min ↔
      (∃ n ∈ fs.childNames sd, p = sd ++ [n]) ∧ fs.isDir p = true ∧
        is_valid_versioned_subdir p max min = true ∧
        WinSdkIncludes.is_valid fs p = true := by
  unfold sdk_found
  simp only [List.mem_filter, List.mem_filterMap]
  constructor
  · rintro ⟨⟨⟨n, hn, hsome⟩, h1⟩, h2⟩
    by_cases hd : fs.isDir (sd ++ [n]) = true
    · rw [if_pos hd] at hsome
      have hp : sd ++ [n] = p := Option.some_inj.mp hsome
      exact ⟨⟨n, hn, hp.symm⟩, by rw [← hp]; exact hd, h1, h2⟩
    · rw [if_neg hd] at hsome
      exact absurd hsome Option.noConfusion
  · rintro ⟨⟨n, hn, hp⟩, hd, h1, h2⟩
    refine ⟨⟨⟨n, hn, ?_⟩, h1⟩, h2⟩
    rw [hp] at hd
    rw [if_pos hd, hp]

theorem ivs_eq (fs : FS) (parent : MPath) (max min : Option Version) :
    include_versioned_subdirs fs parent max min =
      if fs.isDir (parent ++ ["Include"]) = true then
        (if (sdk_found fs (parent ++ ["Include"]) max min).isEmpty = true then
          Except.error ErrKind.notFound
        else Except.ok (sdk_found fs (parent ++ ["Include"]) max min))
      else Except.error ErrKind.notFound := by
  unfold include_versioned_subdirs sub_directory
  by_cases hd : fs.isDir (parent ++ ["Include"]) = true <;> simp [hd]

theorem ivs_ok_members {fs : FS} {parent : MPath} {max min : Option Version}
    {l : List MPath}
    (h : include_versioned_subdirs fs parent max min = Except.ok l) :
    l ≠ [] ∧ ∀ p ∈ l,
      (∃ n ∈ fs.childNames (parent ++ ["Include"]),
        p = (parent ++ ["Include"]) ++ [n]) ∧
      fs.isDir p = true ∧ is_valid_versioned_subdir p max min = true ∧
      WinSdkIncludes.is_valid fs p = true := by
  rw [ivs_eq] at h
  by_cases hd : fs.isDir (parent ++ ["Include"]) = true
  · rw [if_pos hd] at h
    by_cases he : (sdk_found fs (parent ++ ["Include"]) max min).isEmpty = true
    · rw [if_pos he] at h
      exact absurd h (by simp)
    · rw [if_neg he] at h
      have hl : sdk_found fs (parent ++ ["Include"]) max min = l :=
        Except.ok.inj h
      constructor
      · intro hnil
        exact he (List.isEmpty_iff.mpr (hl.trans hnil))
      · intro p hp
        rw [← hl] at hp
        exact mem_sdk_found.mp hp
  · rw [if_neg hd] at h
    exact absurd h (by simp)

theorem ivs_parse {p : MPath} {max min : Option Version}
    (h : is_valid_versioned_subdir p max min = true) :
    ∃ v, parseLast p = some v ∧ has_version_in_range v max min = true := by
  unfold is_valid_versioned_subdir at h
  cases hp : parseLast p with
  | none => rw [hp] at h; simp at h
  | some v =>
    rw [hp] at h
    exact ⟨v, rfl, h⟩

/-- C6: directory-based enumeration fails exactly with a NotFound error,
and exactly when the expected Include child is missing or when no
subdirectory passes all of the directory, in-range-version-name and
structural checks; non-directory entries and unparsable names are
silently skipped: every returned path is a directory child of Include
with an in-range version name that passes the structural check. -/
theorem winsdk_enumeration_errors (fs : FS) (parent : MPath)
    (max min : Option Version) :
    (∀ e, include_versioned_subdirs fs parent max min = Except.error e →
      e = ErrKind.notFound)
    ∧ ((∃ l, include_versioned_subdirs fs parent max min = Except.ok l) ↔
      (fs.isDir (parent ++ ["Include"]) = true ∧
        ∃ n ∈ fs.childNames (parent ++ ["Include"]),
          fs.isDir ((parent ++ ["Include"]) ++ [n]) = true ∧
          is_valid_versioned_subdir ((parent ++ ["Include"]) ++ [n]) max min = true ∧
          WinSdkIncludes.is_valid fs ((parent ++ ["Include"]) ++ [n]) = true))
    ∧ (∀ l, include_versioned_subdirs fs parent max min = Except.ok l →
      ∀ p ∈ l, (∃ n ∈ fs.childNames (parent ++ ["Include"]),
          p = (parent ++ ["Include"]) ++ [n]) ∧
        fs.isDir p = true ∧ is_valid_versioned_subdir p max min = true ∧
        WinSdkIncludes.is_valid fs p = true) := by
  refine ⟨?_, ?_, fun l h => (ivs_ok_members h).2⟩
  · intro e he
    rw [ivs_eq] at he
    by_cases hd : fs.isDir (parent ++ ["Include"]) = true
    · rw [if_pos hd] at he
      by_cases hemp : (sdk_found fs (parent ++ ["Include"]) max min).isEmpty = true
      · rw [if_pos hemp] at he
        exact (Except.error.inj he).symm
      · rw [if_neg hemp] at he
        exact absurd he (by simp)
    · rw [if_neg hd] at he
      exact (Except.error.inj he).symm
  · rw [ivs_eq]
    by_cases hd : fs.isDir (parent ++ ["Include"]) = true
    · rw [if_pos hd]
      by_cases hemp : (sdk_found fs (parent ++ ["Include"]) max min).isEmpty = true
      · rw [if_pos hemp]
        constructor
        · rintro ⟨l, hl⟩
          exact absurd hl (by simp)
        · rintro ⟨_, n, hn, h1, h2, h3⟩
          have hmem : (parent ++ ["Include"]) ++ [n] ∈
              sdk_found fs (parent ++ ["Include"]) max min :=
            mem_sdk_found.mpr ⟨⟨n, hn, rfl⟩, h1, h2, h3⟩
          rw [List.isEmpty_iff] at hemp
          rw [hemp] at hmem
          exact absurd hmem (List.not_mem_nil _)
      · rw [if_neg hemp]
        constructor
        · rintro ⟨l, hl⟩
          refine ⟨hd, ?_⟩
          have hne : sdk_found fs (parent ++ ["Include"]) max min ≠ [] := by
            intro hnil
            rw [← List.isEmpty_iff] at hnil
            exact hemp hnil
          rcases List.exists_mem_of_ne_nil _ hne with ⟨p, hp⟩
          rcases mem_sdk_found.mp hp with ⟨⟨n, hn, hpn⟩, h1, h2, h3⟩
          rw [hpn] at h1 h2 h3
          exact ⟨n, hn, h1, h2, h3⟩
        · intro _
          exact ⟨sdk_found fs (parent ++ ["Include"]) max min, rfl⟩
    · rw [if_neg hd]
      constructor
      · rintro ⟨l, hl⟩
        exact absurd hl (by simp)
      · rintro ⟨hd', _⟩
        exact absurd hd' hd

/-- C10: select_sdk cannot reach either unwrap panic when its input is
the successful result of include_versioned_subdirs, which guarantees a
nonempty list of paths whose file names all parse as versions. -/
theorem winsdk_select_no_panic (fs : FS) (parent : MPath)
    (max min : Option Version) (dirs : List MPath)
    (h : include_versioned_subdirs fs parent max min = Except.ok dirs) :
    select_sdk fs dirs ≠ SdkResult.panic := by
  rcases ivs_ok_members h with ⟨hne, hmem⟩
  have hall : ∀ d ∈ dirs, ∃ v, parseLast d = some v := by
    intro d hd
    rcases ivs_parse (hmem d hd).2.2.1 with ⟨v, hv, _⟩
    exact ⟨v, hv⟩
  rcases vdm_fold_total [] hall with ⟨m, hm⟩
  have hmne : m ≠ [] := vdm_fold_ne_nil hm (Or.inr hne)
  have hsel : select_sdk fs dirs = (match m.getLast? with
      | none => SdkResult.panic
      | some vd => match WinSdkIncludes.create fs vd.2 with
        | Except.ok inc => SdkResult.ok inc
        | Except.error k => SdkResult.err k) := by
    unfold select_sdk versioned_directory_map
    rw [hm]
  rw [hsel]
  cases hgl : m.getLast? with
  | none =>
    rw [List.getLast?_eq_none_iff] at hgl
    exact absurd hgl hmne
  | some vd =>
    cases hc : WinSdkIncludes.create fs vd.2 <;> simp [hc]

/-- SDK test filesystem root. -/
def sdkRoot : MPath := ["P"]

/-- The Include child of the SDK test filesystem. -/
def sdkInc : MPath := ["P", "Include"]

/-- Versioned subdirectory 10.0.20348.0 of the test Include tree. -/
def sdk20348 : MPath := ["P", "Include", "10.0.20348.0"]

/-- Versioned subdirectory 10.0.22000.0 of the test Include tree. -/
def sdk22000 : MPath := ["P", "Include", "10.0.22000.0"]

/-- Versioned subdirectory 10.0.22621.0 of the test Include tree. -/
def sdk22621 : MPath := ["P", "Include", "10.0.22621.0"]

/-- The SDK test filesystem: three structurally valid versioned
subdirectories under P/Include. -/
def sdkFS : FS :=
  ⟨[sdkRoot, sdkInc, sdk20348, sdk22000, sdk22621] ++
    ([sdk20348, sdk22000, sdk22621].map (fun d =>
      WinSdkIncludes.EXPECTED_DIRS.map (fun s => d ++ [s]))).flatten, []⟩

/-- Closed instance of winsdk_enumeration_errors: a filesystem with no
Include child fails with NotFound, and the concrete enumeration result
10.0.20348.0 satisfies every filter. -/
theorem winsdk_enumeration_errors_witness :
    ErrKind.notFound = ErrKind.notFound ∧
    ((∃ n ∈ sdkFS.childNames (sdkRoot ++ ["Include"]),
        sdk20348 = (sdkRoot ++ ["Include"]) ++ [n]) ∧
      sdkFS.isDir sdk20348 = true ∧
      is_valid_versioned_subdir sdk20348 (some ⟨[10, 0, 21000, 0]⟩)
        (some ⟨[10, 0, 20000, 0]⟩) = true ∧
      WinSdkIncludes.is_valid sdkFS sdk20348 = true) :=
  ⟨(winsdk_enumeration_errors ⟨[], []⟩ [] none none).1 ErrKind.notFound rfl,
   (winsdk_enumeration_errors sdkFS sdkRoot (some ⟨[10, 0, 21000, 0]⟩)
      (some ⟨[10, 0, 20000, 0]⟩)).2.2 [sdk20348] rfl sdk20348
     (List.mem_cons_self _ _)⟩

/-- C8: enumerating the test Include tree with range min 10.0.20000.0
(inclusive) and max 10.0.21000.0 (exclusive) returns exactly the
10.0.20348.0 path. -/
theorem winsdk_enumeration_concrete :
    include_versioned_subdirs sdkFS sdkRoot (some ⟨[10, 0, 21000, 0]⟩)
      (some ⟨[10, 0, 20000, 0]⟩) = Except.ok [sdk20348] := by rfl

/-- Closed instance of winsdk_select_no_panic at the test filesystem. -/
theorem winsdk_select_no_panic_witness :
    select_sdk sdkFS [sdk20348] ≠ SdkResult.panic :=
  winsdk_select_no_panic sdkFS sdkRoot (some ⟨[10, 0, 21000, 0]⟩)
    (some ⟨[10, 0, 20000, 0]⟩) [sdk20348] (by rfl)

/-- C7: the structural validity test holds exactly when the candidate
is a directory and each of the five expected child names is a directory
under it, and select_sdk picks the entry of maximum version: the last
map entry is a candidate directory whose version bounds every parseable
candidate name, and the result is built from exactly that directory. -/
theorem winsdk_validity_and_selection :
    (∀ fs path, WinSdkIncludes.is_valid fs path = true ↔
      (fs.isDir path = true ∧
        ∀ s ∈ WinSdkIncludes.EXPECTED_DIRS, fs.isDir (path ++ [s]) = true))
    ∧ (∀ fs dirs m e, versioned_directory_map dirs = some m →
        m.getLast? = some e →
        e.2 ∈ dirs ∧ (∀ d ∈ dirs, ∀ v, parseLast d = some v → vle v e.1) ∧
        select_sdk fs dirs = (match WinSdkIncludes.create fs e.2 with
          | Except.ok inc => SdkResult.ok inc
          | Except.error k => SdkResult.err k)) := by
  constructor
  · intro fs path
    unfold WinSdkIncludes.is_valid
    simp
  · intro fs dirs m e hm hgl
    have hpw := vdm_fold_pairwise List.Pairwise.nil hm
    have hemem : e ∈ m := mem_of_getLast?_eq hgl
    refine ⟨?_, ?_, ?_⟩
    · rcases vdm_fold_values hm e hemem with hz | hz
      · simp at hz
      · exact hz
    · intro d hd v hv
      rcases vdm_fold_covers hm d hd v hv with ⟨w, hw, hle⟩
      exact vle_trans hle (pairwise_getLast_max hpw hgl w hw)
    · have hsel : select_sdk fs dirs = (match m.getLast? with
          | none => SdkResult.panic
          | some vd => match WinSdkIncludes.create fs vd.2 with
            | Except.ok inc => SdkResult.ok inc
            | Except.error k => SdkResult.err k) := by
        unfold select_sdk
        rw [hm]
      rw [hsel, hgl]

/-- Closed instance of winsdk_validity_and_selection at a singleton
candidate list. -/
theorem winsdk_validity_and_selection_witness :
    ((⟨[10, 0, 20348, 0]⟩, sdk20348) : Version × MPath).2 ∈ [sdk20348] ∧
    (∀ d ∈ [sdk20348], ∀ v, parseLast d = some v →
      vle v ((⟨[10, 0, 20348, 0]⟩, sdk20348) : Version × MPath).1) ∧
    select_sdk sdkFS [sdk20348] =
      (match WinSdkIncludes.create sdkFS
          ((⟨[10, 0, 20348, 0]⟩, sdk20348) : Version × MPath).2 with
        | Except.ok inc => SdkResult.ok inc
        | Except.error k => SdkResult.err k) :=
  winsdk_validity_and_selection.2 sdkFS [sdk20348]
    [(⟨[10, 0, 20348, 0]⟩, sdk20348)] (⟨[10, 0, 20348, 0]⟩, sdk20348) rfl rfl

/-- Component-wise three-way comparison of two equal-length lists, most
significant first: the comparison the spec describes after padding. -/
def lexCmpSameLen : List Nat → List Nat → Ordering
  | [], _ => Ordering.eq
  | _ :: _, [] => Ordering.eq
  | x :: xs, y :: ys =>
    if x < y then Ordering.lt
    else if y < x then Ordering.gt
    else lexCmpSameLen xs ys

/-- The order the spec states: zero-pad the shorter component list to
the longer one's length, then compare lexicographically most
significant first. -/
def specPadLexCmp (a b : List Nat) : Ordering :=
  lexCmpSameLen (padTo a (max a.length b.length))
    (padTo b (max a.length b.length))

theorem cmpComponents_eq_lexCmpSameLen :
    ∀ {a b : List Nat}, a.length = b.length →
      cmpComponents a b = lexCmpSameLen a b := by
  intro a
  induction a with
  | nil =>
    intro b h
    cases b with
    | nil => rfl
    | cons y ys => simp at h
  | cons x xs ih =>
    intro b h
    cases b with
    | nil => simp at h
    | cons y ys =>
      simp only [List.length_cons, Nat.add_right_cancel_iff] at h
      simp only [cmpComponents, lexCmpSameLen]
      by_cases h1 : x < y
      · simp [h1]
      · by_cases h2 : y < x <;> simp [h1, h2, ih h]

/-- C4: the order on parsed versions is lexicographic by numeric
component most significant first, the shorter sequence zero-padded to
the longer one's length; parse(1.2.3.4) is less than parse(1.2.3.5)
and parse(1.0) compares equal to parse(1.0.0.0). -/
theorem version_order_lex_padded :
    (∀ a b : Version,
      Version.cmp a b = specPadLexCmp a.components b.components)
    ∧ (∃ v1 v2, Version.parse "1.2.3.4" = some v1 ∧
        Version.parse "1.2.3.5" = some v2 ∧ vlt v1 v2)
    ∧ (∃ v3 v4, Version.parse "1.0" = some v3 ∧
        Version.parse "1.0.0.0" = some v4 ∧
        Version.cmp v3 v4 = Ordering.eq) := by
  refine ⟨?_, ⟨⟨[1, 2, 3, 4]⟩, ⟨[1, 2, 3, 5]⟩, rfl, rfl, by decide⟩,
    ⟨⟨[1, 0]⟩, ⟨[1, 0, 0, 0]⟩, rfl, rfl, by decide⟩⟩
  intro a b
  unfold specPadLexCmp
  rw [← cmpComponents_eq_lexCmpSameLen, cmpComponents_padTo]
  · rfl
  · rw [length_padTo _ _ (Nat.le_max_left _ _),
      length_padTo _ _ (Nat.le_max_right _ _)]

end Msbuild
